import Mathlib

/-!
Verification of the StarRocks distributed join runtime filter
(`be/src/exprs/vectorized/runtime_filter.h` and
`runtime_filter_bank.{h,cpp}`), exercised by
`be/test/exprs/vectorized/runtime_filter_test.cpp`.

The runtime-filter implementation itself is not part of the source tree
given here (only its test suite is), so the data model and every operation
below are modelled from the specification: the cache-line-blocked bloom
filter (`SimdBlockFilter`), the typed runtime filter with min/max range
tracking (`RuntimeBloomFilter`), the partition-routing logic for the five
join modes, and the self-describing wire codec
(`RuntimeFilterHelper::serialize/deserialize_runtime_filter`).
-/

namespace SRF

/-! ## Little-endian byte codec

Modelled from the spec: the wire format uses fixed-width little-endian
integer fields and raw directory bytes (spec §6 "Wire format ... byte-exact").
-/

/-- Encoding of `n` as `k` little-endian bytes. -/
def natToBytes : Nat → Nat → List Nat
  | 0, _ => []
  | k + 1, n => n % 256 :: natToBytes k (n / 256)

/-- Little-endian decoding of a byte list. -/
def bytesToNat : List Nat → Nat
  | [] => 0
  | b :: bs => b + 256 * bytesToNat bs

theorem natToBytes_length (k n : Nat) : (natToBytes k n).length = k := by
  induction k generalizing n with
  | zero => rfl
  | succ k ih => simp [natToBytes, ih]

theorem bytesToNat_natToBytes (k n : Nat) (h : n < 2 ^ (8 * k)) :
    bytesToNat (natToBytes k n) = n := by
  induction k generalizing n with
  | zero =>
    simp only [Nat.mul_zero, pow_zero, Nat.lt_one_iff] at h
    simp [natToBytes, bytesToNat, h]
  | succ k ih =>
    have hdiv : n / 256 < 2 ^ (8 * k) := by
      have h256 : (256 : Nat) = 2 ^ 8 := by norm_num
      rw [h256, Nat.div_lt_iff_lt_mul (by positivity), ← pow_add]
      have : 8 * k + 8 = 8 * (k + 1) := by ring
      rw [this]
      exact h
    simp only [natToBytes, bytesToNat, ih _ hdiv]
    exact Nat.mod_add_div n 256

/-! ## Byte-stream reader

Modelled from the spec: deserialization reads fixed-width fields in order
from the head of the buffer and "fails with a malformed-input error if `len`
is shorter than any field's declared size" (spec §4.3); a reader returns the
parsed value together with the unread remainder, or `none` on a short or
garbled buffer (fail fast, no partial object).
-/

def SReader (α : Type) : Type := List Nat → Option (α × List Nat)

def rpure {α : Type} (a : α) : SReader α := fun buf => some (a, buf)

def rfail {α : Type} : SReader α := fun _ => none

def rbind {α β : Type} (r : SReader α) (k : α → SReader β) : SReader β :=
  fun buf =>
    match r buf with
    | none => none
    | some (a, rest) => k a rest

/-- Read exactly `n` bytes; fails on a shorter buffer. -/
def readBytes (n : Nat) : SReader (List Nat) := fun buf =>
  if n ≤ buf.length then some (buf.take n, buf.drop n) else none

/-- Read an `n`-byte little-endian unsigned integer. -/
def readNat (n : Nat) : SReader Nat :=
  rbind (readBytes n) (fun bs => rpure (bytesToNat bs))

/-- Run `r` repeatedly, `n` times, collecting the results in order. -/
def readList {α : Type} (r : SReader α) : Nat → SReader (List α)
  | 0 => rpure []
  | n + 1 => rbind r (fun a => rbind (readList r n) (fun as => rpure (a :: as)))

theorem readBytes_append (bs rest : List Nat) :
    readBytes bs.length (bs ++ rest) = some (bs, rest) := by
  simp [readBytes, List.take_left, List.drop_left]

theorem readNat_append (k n : Nat) (rest : List Nat) (h : n < 2 ^ (8 * k)) :
    readNat k (natToBytes k n ++ rest) = some (n, rest) := by
  have hrb := readBytes_append (natToBytes k n) rest
  rw [natToBytes_length] at hrb
  simp only [readNat, rbind, hrb]
  simp [rpure, bytesToNat_natToBytes k n h]

/-! `SReader.good r` captures that `r` consumes a deterministic prefix of its
input: on a truncation of a buffer it accepted, it either fails (truncated
below what it consumed) or returns the same value (truncated at or beyond
what it consumed). This is the formal content of "deserialize fails fast on
a buffer shorter than any field's declared size". -/

def SReader.good {α : Type} (r : SReader α) : Prop :=
  ∀ buf a rest, r buf = some (a, rest) →
    rest.length ≤ buf.length ∧
    (∀ k, buf.length - rest.length ≤ k →
      r (buf.take k) = some (a, rest.take (k - (buf.length - rest.length)))) ∧
    (∀ k, k < buf.length - rest.length → r (buf.take k) = none)

theorem good_rpure {α : Type} (a : α) : SReader.good (rpure a) := by
  intro buf b rest h
  simp only [rpure, Option.some.injEq, Prod.mk.injEq] at h
  obtain ⟨hb, hrest⟩ := h
  subst hb; subst hrest
  refine ⟨le_rfl, ?_, ?_⟩
  · intro k _
    simp [rpure]
  · intro k hk
    omega

theorem good_rfail {α : Type} : SReader.good (rfail (α := α)) := by
  intro buf a rest h
  simp [rfail] at h

theorem good_readBytes (n : Nat) : SReader.good (readBytes n) := by
  intro buf a rest h
  simp only [readBytes] at h
  by_cases hle : n ≤ buf.length
  · simp only [hle, if_true, Option.some.injEq, Prod.mk.injEq] at h
    obtain ⟨ha, hrest⟩ := h
    subst ha; subst hrest
    have hdl : (buf.drop n).length = buf.length - n := by simp
    have hconsumed : buf.length - (buf.drop n).length = n := by omega
    refine ⟨by simp, ?_, ?_⟩
    · intro k hk
      rw [hconsumed] at hk ⊢
      have hkl : n ≤ (buf.take k).length := by simp; omega
      simp only [readBytes, hkl, if_true, Option.some.injEq, Prod.mk.injEq]
      constructor
      · rw [List.take_take]
        simp [Nat.min_def, hle, hk]
      · rw [List.drop_take]
    · intro k hk
      rw [hconsumed] at hk
      have : (buf.take k).length < n := by simp; omega
      simp only [readBytes]
      rw [if_neg (by omega)]
  · simp [hle] at h

theorem good_rbind {α β : Type} (r : SReader α) (k : α → SReader β)
    (hr : SReader.good r) (hk : ∀ a, SReader.good (k a)) :
    SReader.good (rbind r k) := by
  intro buf b rest2 h
  simp only [rbind] at h
  cases hro : r buf with
  | none => rw [hro] at h; exact absurd h (by simp)
  | some p =>
    obtain ⟨a, rest1⟩ := p
    rw [hro] at h
    obtain ⟨h1len, h1stab, h1fail⟩ := hr buf a rest1 hro
    obtain ⟨h2len, h2stab, h2fail⟩ := hk a rest1 b rest2 h
    have hcons : buf.length - rest2.length
        = (buf.length - rest1.length) + (rest1.length - rest2.length) := by
      omega
    refine ⟨by omega, ?_, ?_⟩
    · intro j hj
      have hj1 : buf.length - rest1.length ≤ j := by omega
      simp only [rbind, h1stab j hj1]
      have h2 := h2stab (j - (buf.length - rest1.length)) (by omega)
      rw [h2]
      have harith : j - (buf.length - rest1.length) - (rest1.length - rest2.length)
          = j - (buf.length - rest2.length) := by omega
      rw [harith]
    · intro j hj
      simp only [rbind]
      by_cases hj1 : j < buf.length - rest1.length
      · rw [h1fail j hj1]
      · rw [h1stab j (by omega)]
        exact h2fail (j - (buf.length - rest1.length)) (by omega)

theorem good_readNat (n : Nat) : SReader.good (readNat n) :=
  good_rbind _ _ (good_readBytes n) (fun _ => good_rpure _)

theorem good_readList {α : Type} (r : SReader α) (hr : SReader.good r) :
    ∀ n, SReader.good (readList r n)
  | 0 => good_rpure []
  | n + 1 =>
    good_rbind _ _ hr (fun _ =>
      good_rbind _ _ (good_readList r hr n) (fun _ => good_rpure _))

theorem readList_append {α : Type} (r : SReader α) (enc : α → List Nat)
    (xs : List α) (hrt : ∀ a ∈ xs, ∀ rest, r (enc a ++ rest) = some (a, rest))
    (rest : List Nat) :
    readList r xs.length ((xs.flatMap enc) ++ rest) = some (xs, rest) := by
  induction xs generalizing rest with
  | nil => simp [readList, rpure]
  | cons x xs ih =>
    simp only [List.flatMap_cons, List.length_cons, List.append_assoc]
    simp only [readList, rbind, hrt x (by simp)]
    rw [ih (fun a ha => hrt a (by simp [ha])) rest]
    simp [rpure]

/-! ## SimdBlockFilter

Modelled from the spec: `SimdBlockFilter` (spec §4.1 BlockBloomFilter) is a
"fixed-size, cache-line-blocked Bloom filter over 32-bit hash codes": a
`directory` of `2 ^ log_num_buckets` buckets, each bucket a 256-bit block (a
small fixed number of 32-bit machine words used as independent mini-filters).
`insert_hash` derives the bucket index from the high bits of the hash and
sets `BITS_SET_PER_BLOCK` bit positions inside that bucket derived from the
low bits; each bucket is modelled as one natural number below `2 ^ 256`
holding the block's bits.
-/

/-- Number of bit positions set per bucket on each insert (one per 32-bit
word of the cache-line block). -/
def BITS_SET_PER_BLOCK : Nat := 8

/-- The 256-bit mask of the `BITS_SET_PER_BLOCK` positions that hash `h`
sets inside its bucket: word `i` receives bit `(h >>> (4*i)) % 32`, derived
from the low bits of `h`. -/
def blockMask (h : Nat) : Nat :=
  (List.range BITS_SET_PER_BLOCK).foldl
    (fun acc i => acc ||| 2 ^ (32 * i + (h >>> (4 * i)) % 32)) 0

structure SimdBlockFilter where
  log_num_buckets : Nat
  directory : List Nat
deriving DecidableEq

/-- Fuel-bounded floor of the base-2 logarithm (structural recursion so
that concrete instances reduce). -/
def log2floorAux : Nat → Nat → Nat
  | 0, _ => 0
  | fuel + 1, n => if n < 2 then 0 else log2floorAux fuel (n / 2) + 1

/-- Modelled from the spec: `init(expected_inserts)` "sizes the directory so
that, at expected load, per-lookup false-positive probability stays low",
with a power-of-two bucket count "≥ a minimum directory size" (clamped to at
least two buckets). Buckets start empty. -/
def SimdBlockFilter.init (expected_inserts : Nat) : SimdBlockFilter :=
  let log := max 1 (log2floorAux expected_inserts expected_inserts)
  { log_num_buckets := log, directory := List.replicate (2 ^ log) 0 }

/-- Bucket index of hash `h`: "derives a bucket index from the high bits of
`h`" (spec §4.1); the modulus keeps the index total. -/
def SimdBlockFilter.bucketIdx (f : SimdBlockFilter) (h : Nat) : Nat :=
  (h >>> (32 - f.log_num_buckets)) % f.directory.length

/-- Modelled from the spec: sets the block-mask bits of `h` inside its
bucket; no resizing. -/
def SimdBlockFilter.insert_hash (f : SimdBlockFilter) (h : Nat) : SimdBlockFilter :=
  let idx := f.bucketIdx h
  { f with directory := f.directory.set idx (f.directory.getD idx 0 ||| blockMask h) }

/-- Modelled from the spec: "true if all the bits that `insert_hash` would
set are already set". -/
def SimdBlockFilter.test_hash (f : SimdBlockFilter) (h : Nat) : Bool :=
  f.directory.getD (f.bucketIdx h) 0 &&& blockMask h == blockMask h

/-- Modelled from the spec: `merge(other)` "requires `other` have an
identical directory shape; bitwise-ORs every bucket". -/
def SimdBlockFilter.merge (f other : SimdBlockFilter) : SimdBlockFilter :=
  { f with directory := List.zipWith (· ||| ·) f.directory other.directory }

/-- Same shape: equal bucket-count exponent and directory length (the
precondition of `merge`). -/
def SimdBlockFilter.sameShape (f g : SimdBlockFilter) : Prop :=
  f.log_num_buckets = g.log_num_buckets ∧ f.directory.length = g.directory.length

/-- Modelled from the spec: "structural equality of shape and directory
contents". -/
def SimdBlockFilter.check_equal (f g : SimdBlockFilter) : Bool :=
  decide (f = g)

/-- Well-formedness maintained by `init`/`insert_hash`/`merge`: the
directory has exactly `2 ^ log_num_buckets` buckets and every bucket fits
in its 256-bit block. -/
def SimdBlockFilter.wf (f : SimdBlockFilter) : Prop :=
  f.directory.length = 2 ^ f.log_num_buckets ∧ ∀ b ∈ f.directory, b < 2 ^ 256

/-- Modelled from the spec: serialized size is the 4-byte size header plus
the raw directory bytes (32 bytes per bucket), computed from the filter's
shape; "a safe upper bound for buffer pre-allocation". -/
def SimdBlockFilter.max_serialized_size (f : SimdBlockFilter) : Nat :=
  4 + 32 * 2 ^ f.log_num_buckets

/-- Modelled from the spec: "fixed binary layout of a size header followed
by the raw directory bytes"; the header records `log_num_buckets`, from
which the directory byte size follows. -/
def SimdBlockFilter.serialize (f : SimdBlockFilter) : List Nat :=
  natToBytes 4 f.log_num_buckets ++ f.directory.flatMap (natToBytes 32)

/-- Byte reader for one 256-bit bucket. -/
def readBucket : SReader Nat := readNat 32

/-- Modelled from the spec: reads the size header, then exactly the declared
number of directory bytes; "deserializing a buffer shorter than its declared
size fails". -/
def deserializeSBF : SReader SimdBlockFilter :=
  rbind (readNat 4) (fun log =>
    rbind (readList readBucket (2 ^ log)) (fun buckets =>
      rpure { log_num_buckets := log, directory := buckets }))

/-! ### Bit lemmas for bucket membership -/

theorem land_lor_self (w m : Nat) : (w ||| m) &&& m = m := by
  apply Nat.eq_of_testBit_eq
  intro i
  rw [Nat.testBit_land, Nat.testBit_lor]
  cases Nat.testBit w i <;> cases Nat.testBit m i <;> rfl

theorem land_lor_left (a b m : Nat) (h : a &&& m = m) : (a ||| b) &&& m = m := by
  apply Nat.eq_of_testBit_eq
  intro i
  have hb := congrArg (fun x => Nat.testBit x i) h
  simp only [Nat.testBit_land] at hb
  rw [Nat.testBit_land, Nat.testBit_lor]
  revert hb
  cases Nat.testBit a i <;> cases Nat.testBit b i <;> cases Nat.testBit m i <;> simp

theorem land_lor_right (a b m : Nat) (h : b &&& m = m) : (a ||| b) &&& m = m := by
  rw [Nat.lor_comm]
  exact land_lor_left b a m h

theorem blockMask_lt (h : Nat) : blockMask h < 2 ^ 256 := by
  have step : ∀ (l : List Nat) (acc : Nat), acc < 2 ^ 256 → (∀ i ∈ l, i < BITS_SET_PER_BLOCK) →
      List.foldl (fun acc i => acc ||| 2 ^ (32 * i + (h >>> (4 * i)) % 32)) acc l < 2 ^ 256 := by
    intro l
    induction l with
    | nil => intro acc hacc _; exact hacc
    | cons x xs ih =>
      intro acc hacc hmem
      apply ih
      · apply Nat.bitwise_lt_two_pow hacc
        have hx : x < 8 := by simpa [BITS_SET_PER_BLOCK] using hmem x (by simp)
        have hbit : 32 * x + (h >>> (4 * x)) % 32 < 256 := by
          have : (h >>> (4 * x)) % 32 < 32 := Nat.mod_lt _ (by norm_num)
          have : 32 * x ≤ 32 * 7 := by
            have : x ≤ 7 := by omega
            omega
          omega
        calc 2 ^ (32 * x + (h >>> (4 * x)) % 32) ≤ 2 ^ 255 := by
              apply Nat.pow_le_pow_right (by norm_num)
              omega
          _ < 2 ^ 256 := by norm_num
      · intro i hi
        exact hmem i (by simp [hi])
  exact step _ 0 (by norm_num) (by intro i hi; simpa [BITS_SET_PER_BLOCK] using List.mem_range.mp hi)

/-! ### SimdBlockFilter behavior -/

theorem log2floorAux_le (fuel n : Nat) : log2floorAux fuel n ≤ fuel := by
  induction fuel generalizing n with
  | zero => simp [log2floorAux]
  | succ fuel ih =>
    simp only [log2floorAux]
    split
    · omega
    · have := ih (n / 2)
      omega

theorem init_wf (n : Nat) : (SimdBlockFilter.init n).wf := by
  constructor
  · simp [SimdBlockFilter.init]
  · intro b hb
    simp only [SimdBlockFilter.init] at hb
    have := List.eq_of_mem_replicate hb
    subst this
    positivity

theorem init_log_lt (n : Nat) (h : n < 2 ^ 32) :
    (SimdBlockFilter.init n).log_num_buckets < 2 ^ 32 := by
  show max 1 (log2floorAux n n) < 2 ^ 32
  have := log2floorAux_le n n
  simp only [Nat.max_lt]
  omega

theorem insert_hash_shape (f : SimdBlockFilter) (h : Nat) :
    (f.insert_hash h).log_num_buckets = f.log_num_buckets ∧
    (f.insert_hash h).directory.length = f.directory.length := by
  constructor
  · rfl
  · simp [SimdBlockFilter.insert_hash]

theorem insert_hash_wf (f : SimdBlockFilter) (h : Nat) (hwf : f.wf) :
    (f.insert_hash h).wf := by
  obtain ⟨hlen, hbnd⟩ := hwf
  refine ⟨by simpa [SimdBlockFilter.insert_hash] using hlen, ?_⟩
  intro b hb
  simp only [SimdBlockFilter.insert_hash] at hb
  rcases List.mem_or_eq_of_mem_set hb with hmem | heq
  · exact hbnd b hmem
  · subst heq
    apply Nat.bitwise_lt_two_pow
    · rcases Nat.lt_or_ge (f.bucketIdx h) f.directory.length with hlt | hge
      · have hget : f.directory.getD (f.bucketIdx h) 0 = f.directory[f.bucketIdx h] := by
          rw [List.getD_eq_getElem?_getD, List.getElem?_eq_getElem hlt]
          rfl
        rw [hget]
        exact hbnd _ (List.getElem_mem _)
      · rw [List.getD_eq_getElem?_getD, List.getElem?_eq_none hge]
        simp only [Option.getD_none]
        positivity
    · exact blockMask_lt h

/-- Membership in the bucket a hash routes to certifies `test_hash`. -/
theorem test_hash_of_bucket (f : SimdBlockFilter) (h : Nat)
    (hb : f.directory.getD (f.bucketIdx h) 0 &&& blockMask h = blockMask h) :
    f.test_hash h = true := by
  simp only [SimdBlockFilter.test_hash, beq_iff_eq]
  exact hb

theorem bucketIdx_lt (f : SimdBlockFilter) (h : Nat) (hne : 0 < f.directory.length) :
    f.bucketIdx h < f.directory.length :=
  Nat.mod_lt _ hne

theorem test_insert_self (f : SimdBlockFilter) (h : Nat)
    (hne : 0 < f.directory.length) :
    (f.insert_hash h).test_hash h = true := by
  apply test_hash_of_bucket
  have hidx : (f.insert_hash h).bucketIdx h = f.bucketIdx h := by
    simp [SimdBlockFilter.bucketIdx, SimdBlockFilter.insert_hash]
  rw [hidx]
  simp only [SimdBlockFilter.insert_hash]
  rw [List.getD_eq_getElem?_getD, List.getElem?_set_self (bucketIdx_lt f h hne)]
  simp [land_lor_self]

theorem test_insert_preserved (f : SimdBlockFilter) (h h' : Nat)
    (ht : f.test_hash h = true) :
    (f.insert_hash h').test_hash h = true := by
  simp only [SimdBlockFilter.test_hash, beq_iff_eq] at ht
  apply test_hash_of_bucket
  have hidx : (f.insert_hash h').bucketIdx h = f.bucketIdx h := by
    simp [SimdBlockFilter.bucketIdx, SimdBlockFilter.insert_hash]
  rw [hidx]
  simp only [SimdBlockFilter.insert_hash]
  by_cases heq : f.bucketIdx h = f.bucketIdx h'
  · rw [heq, List.getD_eq_getElem?_getD]
    rcases Nat.lt_or_ge (f.bucketIdx h') f.directory.length with hlt | hge
    · rw [List.getElem?_set_self hlt]
      simp only [Option.getD_some]
      rw [← heq]
      exact land_lor_left _ _ _ ht
    · rw [List.set_eq_of_length_le (by omega), ← List.getD_eq_getElem?_getD, ← heq]
      exact ht
  · rw [List.getD_eq_getElem?_getD, List.getElem?_set_ne (by omega),
      ← List.getD_eq_getElem?_getD]
    exact ht

theorem test_merge_left (f g : SimdBlockFilter) (h : Nat)
    (hs : f.sameShape g) (ht : f.test_hash h = true) :
    (f.merge g).test_hash h = true := by
  simp only [SimdBlockFilter.test_hash, beq_iff_eq] at ht
  apply test_hash_of_bucket
  have hmlen : (List.zipWith (· ||| ·) f.directory g.directory).length
      = f.directory.length := by
    rw [List.length_zipWith, ← hs.2, Nat.min_self]
  have hidx : (f.merge g).bucketIdx h = f.bucketIdx h := by
    simp only [SimdBlockFilter.merge, SimdBlockFilter.bucketIdx, hmlen]
  rw [hidx]
  simp only [SimdBlockFilter.merge]
  have hlen2 : f.directory.length = g.directory.length := hs.2
  rcases Nat.lt_or_ge (f.bucketIdx h) f.directory.length with hlt | hge
  · rw [List.getD_eq_getElem?_getD, List.getElem?_zipWith]
    rw [List.getElem?_eq_getElem hlt,
      List.getElem?_eq_getElem (by omega : f.bucketIdx h < g.directory.length)]
    simp only [Option.map_some, Option.some.injEq, Option.getD_some]
    rw [List.getD_eq_getElem?_getD, List.getElem?_eq_getElem hlt] at ht
    simp only [Option.getD_some] at ht
    exact land_lor_left _ _ _ ht
  · rw [List.getD_eq_getElem?_getD, List.getElem?_eq_none (by omega : (List.zipWith (· ||| ·) f.directory g.directory).length ≤ f.bucketIdx h)]
    rw [List.getD_eq_getElem?_getD, List.getElem?_eq_none hge] at ht
    simpa using ht

theorem test_merge_right (f g : SimdBlockFilter) (h : Nat)
    (hs : f.sameShape g) (ht : g.test_hash h = true) :
    (f.merge g).test_hash h = true := by
  simp only [SimdBlockFilter.test_hash, beq_iff_eq] at ht
  apply test_hash_of_bucket
  have hmlen : (List.zipWith (· ||| ·) f.directory g.directory).length
      = g.directory.length := by
    rw [List.length_zipWith, hs.2, Nat.min_self]
  have hidxg : (f.merge g).bucketIdx h = g.bucketIdx h := by
    simp only [SimdBlockFilter.merge, SimdBlockFilter.bucketIdx, hmlen, hs.1]
  rw [hidxg]
  simp only [SimdBlockFilter.merge]
  have hlen2 : f.directory.length = g.directory.length := hs.2
  rcases Nat.lt_or_ge (g.bucketIdx h) g.directory.length with hlt | hge
  · rw [List.getD_eq_getElem?_getD, List.getElem?_zipWith]
    rw [List.getElem?_eq_getElem (by omega : g.bucketIdx h < f.directory.length),
      List.getElem?_eq_getElem hlt]
    simp only [Option.map_some, Option.some.injEq, Option.getD_some]
    rw [List.getD_eq_getElem?_getD, List.getElem?_eq_getElem hlt] at ht
    simp only [Option.getD_some] at ht
    exact land_lor_right _ _ _ ht
  · rw [List.getD_eq_getElem?_getD, List.getElem?_eq_none (by omega : (List.zipWith (· ||| ·) f.directory g.directory).length ≤ g.bucketIdx h)]
    rw [List.getD_eq_getElem?_getD, List.getElem?_eq_none hge] at ht
    simpa using ht

theorem serialize_length (f : SimdBlockFilter) :
    f.serialize.length = 4 + 32 * f.directory.length := by
  simp only [SimdBlockFilter.serialize, List.length_append, natToBytes_length]
  congr 1
  induction f.directory with
  | nil => simp
  | cons b bs ih =>
    simp only [List.flatMap_cons, List.length_append, natToBytes_length, ih,
      List.length_cons]
    ring

theorem deserializeSBF_append (f : SimdBlockFilter) (rest : List Nat)
    (hwf : f.wf) (hlog : f.log_num_buckets < 2 ^ 32) :
    deserializeSBF (f.serialize ++ rest) = some (f, rest) := by
  obtain ⟨hlen, hbnd⟩ := hwf
  have h1 : readNat 4 (f.serialize ++ rest)
      = some (f.log_num_buckets, f.directory.flatMap (natToBytes 32) ++ rest) := by
    simp only [SimdBlockFilter.serialize, List.append_assoc]
    exact readNat_append 4 _ _ (by norm_num at hlog ⊢; omega)
  have h2 : readList readBucket (2 ^ f.log_num_buckets)
      (f.directory.flatMap (natToBytes 32) ++ rest) = some (f.directory, rest) := by
    have hrl := readList_append readBucket (natToBytes 32) f.directory
      (fun b hb r =>
        readNat_append 32 b r (by have := hbnd b hb; norm_num at this ⊢; omega)) rest
    rw [hlen] at hrl
    exact hrl
  simp only [deserializeSBF, rbind, h1, h2, rpure]

theorem good_deserializeSBF : SReader.good deserializeSBF :=
  good_rbind _ _ (good_readNat 4) (fun log =>
    good_rbind _ _ (good_readList readBucket (good_readNat 32) (2 ^ log))
      (fun _ => good_rpure _))

/-! ## RuntimeBloomFilter (TypedRuntimeFilter)

Modelled from the spec: a `RuntimeBloomFilter` combines "one-or-many
`BlockBloomFilter` instances (`filters[0..num_partitions)`)" with a
`[min_value, max_value]` range of observed values of one logical type
(absent until the first non-null insert), a `has_null` flag and a
`join_mode` (spec §3, §4.2). The per-type value hasher is passed as an
explicit function, as build and probe side "must exactly match". -/

/-- The five `TRuntimeFilterBuildJoinMode` partitioning schemes. -/
inductive JoinMode where
  | NONE
  | LOCAL_HASH_BUCKET
  | PARTITIONED
  | SHUFFLE_HASH_BUCKET
  | COLOCATE
deriving DecidableEq

structure RuntimeBloomFilter (V : Type) where
  filters : List SimdBlockFilter
  min_value : Option V
  max_value : Option V
  has_null : Bool
  join_mode : JoinMode
deriving DecidableEq

/-- A default-constructed filter: no partitions, empty range, no nulls. -/
def RuntimeBloomFilter.empty {V : Type} : RuntimeBloomFilter V :=
  { filters := [], min_value := none, max_value := none, has_null := false,
    join_mode := JoinMode.NONE }

/-- Modelled from the spec: `init(expected_inserts)` sizes the single
underlying bloom filter of a freshly built (unpartitioned) filter. -/
def RuntimeBloomFilter.init {V : Type} (expected_inserts : Nat) : RuntimeBloomFilter V :=
  { RuntimeBloomFilter.empty with filters := [SimdBlockFilter.init expected_inserts] }

/-- Option-level range union used by `insert`/`merge`/`concat`:
`min = min(min, min')` once both sides have seen a value. -/
def omin {V : Type} [LinearOrder V] : Option V → Option V → Option V
  | none, y => y
  | some a, none => some a
  | some a, some b => some (min a b)

def omax {V : Type} [LinearOrder V] : Option V → Option V → Option V
  | none, y => y
  | some a, none => some a
  | some a, some b => some (max a b)

/-- Modelled from the spec: `insert(value_ptr)`: a null pointer only sets
`has_null`; otherwise the value is hashed into the (only, or
currently-targeted) bloom filter — partition 0 during a single-partition
build — and the `[min_value, max_value]` range widens to cover it. -/
def RuntimeBloomFilter.insert {V : Type} [LinearOrder V] (hashF : V → Nat)
    (f : RuntimeBloomFilter V) : Option V → RuntimeBloomFilter V
  | none => { f with has_null := true }
  | some v =>
    { f with
      filters :=
        match f.filters with
        | [] => []
        | b :: bs => b.insert_hash (hashF v) :: bs,
      min_value := omin f.min_value (some v),
      max_value := omax f.max_value (some v) }

/-- Insert a batch of non-null values in order. -/
def RuntimeBloomFilter.insertAll {V : Type} [LinearOrder V] (hashF : V → Nat)
    (f : RuntimeBloomFilter V) (vs : List V) : RuntimeBloomFilter V :=
  vs.foldl (fun g v => g.insert hashF (some v)) f

/-- Modelled from the spec: `merge(other)` requires the same logical type
and partition layout; it unions ranges, bloom-merges every corresponding
partition, and ORs the null flags. -/
def RuntimeBloomFilter.merge {V : Type} [LinearOrder V]
    (f other : RuntimeBloomFilter V) : RuntimeBloomFilter V :=
  { filters := List.zipWith SimdBlockFilter.merge f.filters other.filters,
    min_value := omin f.min_value other.min_value,
    max_value := omax f.max_value other.max_value,
    has_null := f.has_null || other.has_null,
    join_mode := f.join_mode }

/-- Modelled from the spec: `concat(other)` appends `other`'s sub-filters
as new partitions (partition count grows by `other`'s partition count),
preserving per-partition separability; the composite's range and null flag
also absorb `other`'s so that the range pre-check admits every component's
values (spec §2 data flow: "bitwise union + range union ... or
concatenates"). -/
def RuntimeBloomFilter.concat {V : Type} [LinearOrder V]
    (f other : RuntimeBloomFilter V) : RuntimeBloomFilter V :=
  { filters := f.filters ++ other.filters,
    min_value := omin f.min_value other.min_value,
    max_value := omax f.max_value other.max_value,
    has_null := f.has_null || other.has_null,
    join_mode := f.join_mode }

/-- Modelled from the spec: records which routing function `evaluate` uses. -/
def RuntimeBloomFilter.set_join_mode {V : Type} (f : RuntimeBloomFilter V)
    (mode : JoinMode) : RuntimeBloomFilter V :=
  { f with join_mode := mode }

/-- Modelled from the spec (RunningContext, §3): per-evaluation scratch
state — the selection vector and the bucket-sequence→partition table used
only in COLOCATE mode. -/
structure RunningContext where
  selection : List Bool
  bucketseq_to_partition : List Nat

/-- Modelled from the spec: the PartitionRouter dispatch (spec §4.2):
`NONE` → partition 0; the three hash modes → `hash % num_partitions`;
`COLOCATE` → `bucketseq_to_partition[hash % num_buckets]`. -/
def routePartition (mode : JoinMode) (bucketseq : List Nat)
    (num_partitions : Nat) (h : Nat) : Nat :=
  match mode with
  | JoinMode.NONE => 0
  | JoinMode.LOCAL_HASH_BUCKET => h % num_partitions
  | JoinMode.PARTITIONED => h % num_partitions
  | JoinMode.SHUFFLE_HASH_BUCKET => h % num_partitions
  | JoinMode.COLOCATE => bucketseq.getD (h % bucketseq.length) 0

/-- The out-of-range sub-filter placeholder (an empty directory fails every
test, so routing outside the partition list fails closed). -/
def emptySBF : SimdBlockFilter :=
  { log_num_buckets := 0, directory := [] }

/-- Modelled from the spec: the range pre-check of `evaluate`: the value
"must lie within `[min_value, max_value]`"; before any insert the range is
empty. -/
def RuntimeBloomFilter.rangeContains {V : Type} [LinearOrder V]
    (f : RuntimeBloomFilter V) (v : V) : Bool :=
  match f.min_value, f.max_value with
  | some m, some M => decide (m ≤ v) && decide (v ≤ M)
  | _, _ => false

/-- Per-row test of `evaluate`: a null row never matches (default policy);
a non-null value must pass the range pre-check and hash-test true against
the partition-routed sub-filter. -/
def RuntimeBloomFilter.testRow {V : Type} [LinearOrder V] (hashF : V → Nat)
    (f : RuntimeBloomFilter V) (bucketseq : List Nat) : Option V → Bool
  | none => false
  | some v =>
    f.rangeContains v &&
      (f.filters.getD
        (routePartition f.join_mode bucketseq f.filters.length (hashF v))
        emptySBF).test_hash (hashF v)

/-- Modelled from the spec: `evaluate(column, ctx)` tests each row, ANDs
the outcome into the existing selection vector (zero entries are never
flipped back), and returns the number of surviving rows. -/
def RuntimeBloomFilter.evaluate {V : Type} [LinearOrder V] (hashF : V → Nat)
    (f : RuntimeBloomFilter V) (column : List (Option V))
    (ctx : RunningContext) : Nat × RunningContext :=
  let sel := List.zipWith
    (fun s ov => s && f.testRow hashF ctx.bucketseq_to_partition ov)
    ctx.selection column
  (sel.count true, { ctx with selection := sel })

/-- Modelled from the spec: deep equality across range, null flag, join
mode, and every partition's bloom state. -/
def RuntimeBloomFilter.check_equal {V : Type} [DecidableEq V]
    (f g : RuntimeBloomFilter V) : Bool :=
  decide (f = g)

/-! ## RuntimeFilterCodec

Modelled from the spec: `RuntimeFilterHelper::serialize_runtime_filter` /
`deserialize_runtime_filter` write and read a self-describing byte buffer
(spec §6, byte-exact): type tag, join-mode tag, partition count, null
flag, min value, max value, then each partition's bloom bytes in order.
Supported logical types here are the two the tests build: a 64-bit-encoded
integer type (`TYPE_INT` values fit) and `TYPE_VARCHAR` (length-prefixed
byte string). Deserialization dispatches on the leading type tag and fails
on an unrecognized tag or a buffer shorter than any field's declared size;
the arena allocation of the result is outside the value model. -/

/-- Wire tag of the integer logical type. -/
def TYPE_INT_TAG : Nat := 5

/-- Wire tag of the varchar logical type. -/
def TYPE_VARCHAR_TAG : Nat := 15

def modeToNat : JoinMode → Nat
  | JoinMode.NONE => 0
  | JoinMode.LOCAL_HASH_BUCKET => 1
  | JoinMode.PARTITIONED => 2
  | JoinMode.SHUFFLE_HASH_BUCKET => 3
  | JoinMode.COLOCATE => 4

def natToMode : Nat → Option JoinMode
  | 0 => some JoinMode.NONE
  | 1 => some JoinMode.LOCAL_HASH_BUCKET
  | 2 => some JoinMode.PARTITIONED
  | 3 => some JoinMode.SHUFFLE_HASH_BUCKET
  | 4 => some JoinMode.COLOCATE
  | _ => none

/-- Fixed 8-byte biased two's-complement-style encoding of an integer
value. -/
def encodeInt (i : Int) : List Nat :=
  natToBytes 8 (i + 2 ^ 63).toNat

/-- Length-prefixed encoding of a varchar value (byte string). -/
def encodeStr (s : List Nat) : List Nat :=
  natToBytes 4 s.length ++ s

def readByte : SReader Nat :=
  rbind (readBytes 1) (fun bs => rpure (bs.getD 0 0))

def readIntVal : SReader Int :=
  rbind (readBytes 8) (fun bs => rpure ((bytesToNat bs : Int) - 2 ^ 63))

def readStrVal : SReader (List Nat) :=
  rbind (readNat 4) (fun n => readBytes n)

/-- A possibly-absent bound is encoded with a one-byte presence flag
followed by the value's type-specific encoding. -/
def encodeOptVal {V : Type} (enc : V → List Nat) : Option V → List Nat
  | none => [0]
  | some v => 1 :: enc v

def readOptVal {V : Type} (rv : SReader V) : SReader (Option V) :=
  rbind readByte (fun b =>
    match b with
    | 0 => rpure none
    | 1 => rbind rv (fun v => rpure (some v))
    | _ => rfail)

/-- The body of a serialized filter after the type tag (spec §6 fields
2–6). -/
def serializeBody {V : Type} (enc : V → List Nat)
    (f : RuntimeBloomFilter V) : List Nat :=
  modeToNat f.join_mode ::
    (natToBytes 4 f.filters.length ++
      ((if f.has_null then 1 else 0) ::
        (encodeOptVal enc f.min_value ++ encodeOptVal enc f.max_value ++
          f.filters.flatMap SimdBlockFilter.serialize)))

def readRFBody {V : Type} (rv : SReader V) : SReader (RuntimeBloomFilter V) :=
  rbind readByte (fun mb =>
    match natToMode mb with
    | none => rfail
    | some mode =>
      rbind (readNat 4) (fun np =>
        rbind readByte (fun nb =>
          rbind (readOptVal rv) (fun mn =>
            rbind (readOptVal rv) (fun mx =>
              rbind (readList deserializeSBF np) (fun parts =>
                rpure { filters := parts, min_value := mn, max_value := mx,
                        has_null := nb == 1, join_mode := mode }))))))

/-- The closed union of filters the codec can reconstruct, keyed by the
leading type tag (spec §9: "a closed tagged union keyed by type tag
mirrors the wire format directly"). -/
inductive TypedFilter where
  | intFilter (f : RuntimeBloomFilter Int)
  | varcharFilter (f : RuntimeBloomFilter (List Nat))
deriving DecidableEq

/-- Modelled from the spec: writes the type tag then the header, min, max,
null flag, partition count and each partition's bytes in order. -/
def serialize_runtime_filter : TypedFilter → List Nat
  | TypedFilter.intFilter f => TYPE_INT_TAG :: serializeBody encodeInt f
  | TypedFilter.varcharFilter f => TYPE_VARCHAR_TAG :: serializeBody encodeStr f

/-- Modelled from the spec: reads the type tag, allocates a filter of the
matching type, reconstructs header fields and each partition; fails with a
malformed-input error on an unrecognized tag or a short buffer. -/
def deserialize_runtime_filter : SReader TypedFilter :=
  rbind readByte (fun tag =>
    if tag = TYPE_INT_TAG then
      rbind (readRFBody readIntVal) (fun f => rpure (TypedFilter.intFilter f))
    else if tag = TYPE_VARCHAR_TAG then
      rbind (readRFBody readStrVal) (fun f => rpure (TypedFilter.varcharFilter f))
    else rfail)

/-- Deep equality of typed filters (wraps the per-type `check_equal`). -/
def TypedFilter.check_equal : TypedFilter → TypedFilter → Bool
  | TypedFilter.intFilter f, TypedFilter.intFilter g => f.check_equal g
  | TypedFilter.varcharFilter f, TypedFilter.varcharFilter g => f.check_equal g
  | _, _ => false

def TypedFilter.has_nullT : TypedFilter → Bool
  | TypedFilter.intFilter f => f.has_null
  | TypedFilter.varcharFilter f => f.has_null

/-- The min bound, injected into the sum of the supported value types. -/
def TypedFilter.minValueE : TypedFilter → Option (Int ⊕ List Nat)
  | TypedFilter.intFilter f => f.min_value.map Sum.inl
  | TypedFilter.varcharFilter f => f.min_value.map Sum.inr

def TypedFilter.maxValueE : TypedFilter → Option (Int ⊕ List Nat)
  | TypedFilter.intFilter f => f.max_value.map Sum.inl
  | TypedFilter.varcharFilter f => f.max_value.map Sum.inr

/-- Encodable integer values (they fit the fixed 8-byte encoding). -/
def intValOK (i : Int) : Bool :=
  decide (-(2 ^ 63) ≤ i) && decide (i < 2 ^ 63)

/-- Encodable varchar values (the length fits its 4-byte prefix). -/
def strValOK (s : List Nat) : Bool :=
  decide (s.length < 2 ^ 32)

/-- Well-formedness of a filter relative to its value encoding: every
partition is a well-formed bloom filter of bounded shape, the partition
count fits its wire field, and the bounds are encodable. -/
def RuntimeBloomFilter.wfWith {V : Type} (valOK : V → Bool)
    (f : RuntimeBloomFilter V) : Prop :=
  (∀ b ∈ f.filters, b.wf ∧ b.log_num_buckets < 2 ^ 32) ∧
    f.filters.length < 2 ^ 32 ∧
    Option.all valOK f.min_value = true ∧ Option.all valOK f.max_value = true

def TypedFilter.wfT : TypedFilter → Prop
  | TypedFilter.intFilter f => f.wfWith intValOK
  | TypedFilter.varcharFilter f => f.wfWith strValOK

instance (f : SimdBlockFilter) : Decidable f.wf := by
  unfold SimdBlockFilter.wf
  infer_instance

instance {V : Type} (valOK : V → Bool) (f : RuntimeBloomFilter V) :
    Decidable (f.wfWith valOK) := by
  unfold RuntimeBloomFilter.wfWith
  infer_instance

instance (tf : TypedFilter) : Decidable tf.wfT := by
  cases tf <;> unfold TypedFilter.wfT <;> infer_instance

/-! ### Codec round-trip -/

theorem readByte_cons (b : Nat) (rest : List Nat) :
    readByte (b :: rest) = some (b, rest) := by
  have h := readBytes_append [b] rest
  simp only [List.length_cons, List.length_nil, List.cons_append, List.nil_append] at h
  simp only [readByte, rbind, h, rpure, List.getD]
  rfl

theorem natToMode_modeToNat (m : JoinMode) : natToMode (modeToNat m) = some m := by
  cases m <;> rfl

theorem readIntVal_append (i : Int) (rest : List Nat) (hok : intValOK i = true) :
    readIntVal (encodeInt i ++ rest) = some (i, rest) := by
  simp only [intValOK, Bool.and_eq_true, decide_eq_true_eq] at hok
  have hnn : (0 : Int) ≤ i + 2 ^ 63 := by omega
  have hlt : (i + 2 ^ 63).toNat < 2 ^ (8 * 8) := by omega
  have hrb := readBytes_append (natToBytes 8 (i + 2 ^ 63).toNat) rest
  rw [natToBytes_length] at hrb
  simp only [readIntVal, encodeInt, rbind, hrb, rpure,
    bytesToNat_natToBytes _ _ hlt]
  rw [Int.toNat_of_nonneg hnn]
  simp only [Option.some.injEq, Prod.mk.injEq]
  refine ⟨by ring, ?_⟩
  trivial

theorem readStrVal_append (s : List Nat) (rest : List Nat) (hok : strValOK s = true) :
    readStrVal (encodeStr s ++ rest) = some (s, rest) := by
  simp only [strValOK, decide_eq_true_eq] at hok
  simp only [readStrVal, encodeStr, rbind, List.append_assoc]
  rw [readNat_append 4 s.length _ (by norm_num at hok ⊢; omega)]
  exact readBytes_append s rest

theorem readOptVal_append {V : Type} (rv : SReader V) (enc : V → List Nat)
    (valOK : V → Bool)
    (hv : ∀ v, valOK v = true → ∀ rest, rv (enc v ++ rest) = some (v, rest))
    (o : Option V) (hok : Option.all valOK o = true) (rest : List Nat) :
    readOptVal rv (encodeOptVal enc o ++ rest) = some (o, rest) := by
  cases o with
  | none =>
    simp only [encodeOptVal, List.cons_append, List.nil_append]
    simp only [readOptVal, rbind, readByte_cons, rpure]
  | some v =>
    simp only [Option.all_some] at hok
    simp only [encodeOptVal, List.cons_append, List.append_assoc]
    simp only [readOptVal, rbind, readByte_cons]
    rw [hv v hok rest]
    rfl

theorem readRFBody_append {V : Type} (rv : SReader V) (enc : V → List Nat)
    (valOK : V → Bool)
    (hv : ∀ v, valOK v = true → ∀ rest, rv (enc v ++ rest) = some (v, rest))
    (f : RuntimeBloomFilter V) (hwf : f.wfWith valOK) (rest : List Nat) :
    readRFBody rv (serializeBody enc f ++ rest) = some (f, rest) := by
  obtain ⟨hparts, hnp, hmn, hmx⟩ := hwf
  have h2 : readList deserializeSBF f.filters.length
      (f.filters.flatMap SimdBlockFilter.serialize ++ rest)
      = some (f.filters, rest) :=
    readList_append deserializeSBF SimdBlockFilter.serialize f.filters
      (fun b hb r => deserializeSBF_append b r (hparts b hb).1 (hparts b hb).2) rest
  have h1 : readNat 4
      (natToBytes 4 f.filters.length ++
        ((if f.has_null then 1 else 0) ::
          (encodeOptVal enc f.min_value ++ (encodeOptVal enc f.max_value ++
            (f.filters.flatMap SimdBlockFilter.serialize ++ rest)))))
      = some (f.filters.length,
          (if f.has_null then 1 else 0) ::
            (encodeOptVal enc f.min_value ++ (encodeOptVal enc f.max_value ++
              (f.filters.flatMap SimdBlockFilter.serialize ++ rest)))) :=
    readNat_append 4 _ _ (by norm_num at hnp ⊢; omega)
  have hmnA := readOptVal_append rv enc valOK hv f.min_value hmn
    (encodeOptVal enc f.max_value ++ (f.filters.flatMap SimdBlockFilter.serialize ++ rest))
  have hmxA := readOptVal_append rv enc valOK hv f.max_value hmx
    (f.filters.flatMap SimdBlockFilter.serialize ++ rest)
  have hnb : ((if f.has_null then (1 : Nat) else 0) == 1) = f.has_null := by
    cases f.has_null <;> rfl
  simp only [serializeBody, List.cons_append, List.append_assoc, readRFBody,
    rbind, readByte_cons, natToMode_modeToNat, h1, hmnA, hmxA, h2, rpure, hnb]

theorem deserialize_serialize (tf : TypedFilter) (hwf : tf.wfT)
    (rest : List Nat) :
    deserialize_runtime_filter (serialize_runtime_filter tf ++ rest)
      = some (tf, rest) := by
  cases tf with
  | intFilter f =>
    have hb := readRFBody_append readIntVal encodeInt intValOK
      (fun v hv r => readIntVal_append v r hv) f hwf rest
    simp only [serialize_runtime_filter, List.cons_append,
      deserialize_runtime_filter, rbind, readByte_cons]
    simp only [if_true, rbind, hb, rpure]
  | varcharFilter f2 =>
    have hb := readRFBody_append readStrVal encodeStr strValOK
      (fun v hv r => readStrVal_append v r hv) f2 hwf rest
    simp only [serialize_runtime_filter, List.cons_append,
      deserialize_runtime_filter, rbind, readByte_cons]
    rw [if_neg (by decide)]
    have hfin : rbind (readRFBody readStrVal)
        (fun g => rpure (TypedFilter.varcharFilter g))
        (serializeBody encodeStr f2 ++ rest)
        = some (TypedFilter.varcharFilter f2, rest) := by
      simp only [rbind, hb, rpure]
    exact hfin

theorem good_readOptVal {V : Type} (rv : SReader V) (hrv : SReader.good rv) :
    SReader.good (readOptVal rv) := by
  apply good_rbind _ _ (good_rbind _ _ (good_readBytes 1) (fun _ => good_rpure _))
  intro b
  match b with
  | 0 => exact good_rpure _
  | 1 => exact good_rbind _ _ hrv (fun _ => good_rpure _)
  | (n + 2) => exact good_rfail

theorem good_readRFBody {V : Type} (rv : SReader V) (hrv : SReader.good rv) :
    SReader.good (readRFBody rv) := by
  apply good_rbind _ _ (good_rbind _ _ (good_readBytes 1) (fun _ => good_rpure _))
  intro mb
  cases natToMode mb with
  | none => exact good_rfail
  | some mode =>
    exact good_rbind _ _ (good_readNat 4) (fun np =>
      good_rbind _ _ (good_rbind _ _ (good_readBytes 1) (fun _ => good_rpure _))
        (fun nb =>
          good_rbind _ _ (good_readOptVal rv hrv) (fun mn =>
            good_rbind _ _ (good_readOptVal rv hrv) (fun mx =>
              good_rbind _ _ (good_readList deserializeSBF good_deserializeSBF np)
                (fun parts => good_rpure _)))))

theorem good_readIntVal : SReader.good readIntVal :=
  good_rbind _ _ (good_readBytes 8) (fun _ => good_rpure _)

theorem good_readStrVal : SReader.good readStrVal :=
  good_rbind _ _ (good_readNat 4) (fun n => good_readBytes n)

/-! ### Filter-building and evaluation lemmas -/

theorem zipWith_and_getD_false {V : Type} (p : Option V → Bool)
    (sel : List Bool) (col : List (Option V)) (i : Nat)
    (h : sel.getD i false = false) :
    (List.zipWith (fun s ov => s && p ov) sel col).getD i false = false := by
  induction sel generalizing col i with
  | nil => simp
  | cons s ss ih =>
    cases col with
    | nil => simp
    | cons o os =>
      cases i with
      | zero =>
        simp only [List.getD_cons_zero] at h
        simp [h]
      | succ j =>
        simp only [List.getD_cons_succ] at h ⊢
        exact ih os j h

theorem zipWith_and_getD_none {V : Type} (p : Option V → Bool)
    (hp : p none = false) (sel : List Bool) (col : List (Option V)) (i : Nat)
    (h : col.getD i none = none) :
    (List.zipWith (fun s ov => s && p ov) sel col).getD i false = false := by
  induction sel generalizing col i with
  | nil => simp
  | cons s ss ih =>
    cases col with
    | nil => simp
    | cons o os =>
      cases i with
      | zero =>
        simp only [List.getD_cons_zero] at h
        subst h
        simp [hp]
      | succ j =>
        simp only [List.getD_cons_succ] at h ⊢
        exact ih os j h

theorem count_zipWith_all_true {V : Type} (p : Option V → Bool)
    (rows : List V) (h : ∀ v ∈ rows, p (some v) = true) :
    (List.zipWith (fun s ov => s && p ov)
      (List.replicate rows.length true) (rows.map some)).count true
      = rows.length := by
  induction rows with
  | nil => simp
  | cons v vs ih =>
    simp only [List.length_cons, List.replicate_succ, List.map_cons,
      List.zipWith_cons_cons, Bool.true_and]
    rw [h v (by simp), List.count_cons]
    simp [ih (fun w hw => h w (by simp [hw]))]

theorem insertAll_filters {V : Type} [LinearOrder V] (hashF : V → Nat)
    (vs : List V) (f : RuntimeBloomFilter V) (b : SimdBlockFilter)
    (bs : List SimdBlockFilter) (hf : f.filters = b :: bs) :
    (f.insertAll hashF vs).filters
      = (vs.foldl (fun c v => c.insert_hash (hashF v)) b) :: bs := by
  induction vs generalizing f b with
  | nil => simpa [RuntimeBloomFilter.insertAll] using hf
  | cons v vs ih =>
    simp only [RuntimeBloomFilter.insertAll, List.foldl_cons]
    exact ih _ _ (by simp [RuntimeBloomFilter.insert, hf])

theorem insertAll_min {V : Type} [LinearOrder V] (hashF : V → Nat)
    (vs : List V) (f : RuntimeBloomFilter V) :
    (f.insertAll hashF vs).min_value
      = vs.foldl (fun acc v => omin acc (some v)) f.min_value := by
  induction vs generalizing f with
  | nil => rfl
  | cons v vs ih =>
    simp only [RuntimeBloomFilter.insertAll, List.foldl_cons] at ih ⊢
    rw [ih]
    rfl

theorem insertAll_max {V : Type} [LinearOrder V] (hashF : V → Nat)
    (vs : List V) (f : RuntimeBloomFilter V) :
    (f.insertAll hashF vs).max_value
      = vs.foldl (fun acc v => omax acc (some v)) f.max_value := by
  induction vs generalizing f with
  | nil => rfl
  | cons v vs ih =>
    simp only [RuntimeBloomFilter.insertAll, List.foldl_cons] at ih ⊢
    rw [ih]
    rfl

theorem foldl_ominv_le {V : Type} [LinearOrder V] (vs : List V) (a : V) :
    ∃ m, vs.foldl (fun acc v => omin acc (some v)) (some a) = some m ∧ m ≤ a := by
  induction vs generalizing a with
  | nil => exact ⟨a, rfl, le_rfl⟩
  | cons v vs ih =>
    simp only [List.foldl_cons, omin]
    obtain ⟨m, hm, hle⟩ := ih (min a v)
    exact ⟨m, hm, le_trans hle (min_le_left a v)⟩

theorem foldl_ominv_mem {V : Type} [LinearOrder V] (vs : List V) (v : V)
    (hv : v ∈ vs) (acc : Option V) :
    ∃ m, vs.foldl (fun acc v => omin acc (some v)) acc = some m ∧ m ≤ v := by
  induction vs generalizing acc with
  | nil => cases hv
  | cons w ws ih =>
    simp only [List.foldl_cons]
    rcases List.mem_cons.mp hv with heq | hmem
    · subst heq
      cases acc with
      | none => exact foldl_ominv_le ws v
      | some a =>
        obtain ⟨m, hm, hle⟩ := foldl_ominv_le ws (min a v)
        exact ⟨m, hm, le_trans hle (min_le_right a v)⟩
    · exact ih hmem _

theorem foldl_omaxv_le {V : Type} [LinearOrder V] (vs : List V) (a : V) :
    ∃ m, vs.foldl (fun acc v => omax acc (some v)) (some a) = some m ∧ a ≤ m := by
  induction vs generalizing a with
  | nil => exact ⟨a, rfl, le_rfl⟩
  | cons v vs ih =>
    simp only [List.foldl_cons, omax]
    obtain ⟨m, hm, hle⟩ := ih (max a v)
    exact ⟨m, hm, le_trans (le_max_left a v) hle⟩

theorem foldl_omaxv_mem {V : Type} [LinearOrder V] (vs : List V) (v : V)
    (hv : v ∈ vs) (acc : Option V) :
    ∃ m, vs.foldl (fun acc v => omax acc (some v)) acc = some m ∧ v ≤ m := by
  induction vs generalizing acc with
  | nil => cases hv
  | cons w ws ih =>
    simp only [List.foldl_cons]
    rcases List.mem_cons.mp hv with heq | hmem
    · subst heq
      cases acc with
      | none => exact foldl_omaxv_le ws v
      | some a =>
        obtain ⟨m, hm, hle⟩ := foldl_omaxv_le ws (max a v)
        exact ⟨m, hm, le_trans (le_max_right a v) hle⟩
    · exact ih hmem _

theorem foldl_ominv_result {V : Type} [LinearOrder V] (vs : List V)
    (acc : Option V) (m : V)
    (h : vs.foldl (fun acc v => omin acc (some v)) acc = some m) :
    acc = some m ∨ m ∈ vs := by
  induction vs generalizing acc with
  | nil => exact Or.inl h
  | cons v vs ih =>
    simp only [List.foldl_cons] at h
    rcases ih _ h with hacc | hmem
    · cases acc with
      | none =>
        simp only [omin, Option.some.injEq] at hacc
        exact Or.inr (by simp [hacc])
      | some a =>
        simp only [omin, Option.some.injEq] at hacc
        rcases min_choice a v with hc | hc
        · exact Or.inl (by rw [hacc] at hc; rw [hc])
        · rw [hacc] at hc
          exact Or.inr (by simp [hc])
    · exact Or.inr (by simp [hmem])

theorem foldl_omaxv_result {V : Type} [LinearOrder V] (vs : List V)
    (acc : Option V) (m : V)
    (h : vs.foldl (fun acc v => omax acc (some v)) acc = some m) :
    acc = some m ∨ m ∈ vs := by
  induction vs generalizing acc with
  | nil => exact Or.inl h
  | cons v vs ih =>
    simp only [List.foldl_cons] at h
    rcases ih _ h with hacc | hmem
    · cases acc with
      | none =>
        simp only [omax, Option.some.injEq] at hacc
        exact Or.inr (by simp [hacc])
      | some a =>
        simp only [omax, Option.some.injEq] at hacc
        rcases max_choice a v with hc | hc
        · exact Or.inl (by rw [hacc] at hc; rw [hc])
        · rw [hacc] at hc
          exact Or.inr (by simp [hc])
    · exact Or.inr (by simp [hmem])

theorem foldl_insert_hash_wf (hs : List Nat) (b : SimdBlockFilter) (hwf : b.wf) :
    (hs.foldl SimdBlockFilter.insert_hash b).wf ∧
    (hs.foldl SimdBlockFilter.insert_hash b).log_num_buckets = b.log_num_buckets ∧
    (hs.foldl SimdBlockFilter.insert_hash b).directory.length = b.directory.length := by
  induction hs generalizing b with
  | nil => exact ⟨hwf, rfl, rfl⟩
  | cons h hs ih =>
    simp only [List.foldl_cons]
    obtain ⟨w, l1, l2⟩ := ih (b.insert_hash h) (insert_hash_wf b h hwf)
    exact ⟨w, l1.trans (insert_hash_shape b h).1, l2.trans (insert_hash_shape b h).2⟩

theorem test_foldl_insert_pres (hs : List Nat) (b : SimdBlockFilter) (h : Nat)
    (ht : b.test_hash h = true) :
    (hs.foldl SimdBlockFilter.insert_hash b).test_hash h = true := by
  induction hs generalizing b with
  | nil => exact ht
  | cons h2 hs ih =>
    simp only [List.foldl_cons]
    exact ih _ (test_insert_preserved b h h2 ht)

theorem test_foldl_insert_mem (hs : List Nat) (b : SimdBlockFilter) (h : Nat)
    (hmem : h ∈ hs) (hne : 0 < b.directory.length) :
    (hs.foldl SimdBlockFilter.insert_hash b).test_hash h = true := by
  induction hs generalizing b with
  | nil => cases hmem
  | cons h2 hs ih =>
    simp only [List.foldl_cons]
    rcases List.mem_cons.mp hmem with heq | hmem2
    · subst heq
      exact test_foldl_insert_pres hs _ h (test_insert_self b h hne)
    · exact ih (b.insert_hash h2) hmem2
        (by rw [(insert_hash_shape b h2).2]; exact hne)

theorem good_deserialize_runtime_filter :
    SReader.good deserialize_runtime_filter := by
  apply good_rbind _ _ (good_rbind _ _ (good_readBytes 1) (fun _ => good_rpure _))
  intro tag
  by_cases h1 : tag = TYPE_INT_TAG
  · rw [if_pos h1]
    exact good_rbind _ _ (good_readRFBody readIntVal good_readIntVal)
      (fun _ => good_rpure _)
  · rw [if_neg h1]
    by_cases h2 : tag = TYPE_VARCHAR_TAG
    · rw [if_pos h2]
      exact good_rbind _ _ (good_readRFBody readStrVal good_readStrVal)
        (fun _ => good_rpure _)
    · rw [if_neg h2]
      exact good_rfail

/-! ### The concat + partitioned probe scenario (test_grf_helper) -/

/-- Build-side per-partition filter: sized to its row count, then all the
partition's rows inserted (mirrors `bfs[p].init(...)` + `insert` in
`test_grf_helper`). -/
def buildFilter {V : Type} [LinearOrder V] (hashF : V → Nat) (vals : List V) :
    RuntimeBloomFilter V :=
  (RuntimeBloomFilter.init vals.length).insertAll hashF vals

/-- One serialize/deserialize round trip of a varchar filter through the
codec, as `test_grf_helper` does before concatenating each component. -/
def roundtripVarchar (f : RuntimeBloomFilter (List Nat)) :
    RuntimeBloomFilter (List Nat) :=
  match deserialize_runtime_filter
      (serialize_runtime_filter (TypedFilter.varcharFilter f)) with
  | some (TypedFilter.varcharFilter g, _) => g
  | _ => RuntimeBloomFilter.empty

/-- The rows the partition hash function routes to partition `p`. -/
def partRows (hashF : List Nat → Nat) (rows : List (List Nat)) (P p : Nat) :
    List (List Nat) :=
  rows.filter (fun w => hashF w % P = p)

/-- The single-partition filter partition `p` builds from its rows. -/
def partFilter (hashF : List Nat → Nat) (rows : List (List Nat)) (P p : Nat) :
    RuntimeBloomFilter (List Nat) :=
  buildFilter hashF (partRows hashF rows P p)

/-- The composite global runtime filter of the concat scenario: one
single-partition filter per partition, each serialized and deserialized,
concatenated in partition order, with the join mode then set to the
partitioning scheme. -/
def grfOf (hashF : List Nat → Nat) (rows : List (List Nat)) (P : Nat) :
    RuntimeBloomFilter (List Nat) :=
  (((List.range P).map (fun p =>
      roundtripVarchar (partFilter hashF rows P p))).foldl
    RuntimeBloomFilter.concat RuntimeBloomFilter.empty).set_join_mode
    JoinMode.PARTITIONED

theorem roundtripVarchar_eq (f : RuntimeBloomFilter (List Nat))
    (hwf : f.wfWith strValOK) : roundtripVarchar f = f := by
  have h := deserialize_serialize (TypedFilter.varcharFilter f) hwf []
  rw [List.append_nil] at h
  simp only [roundtripVarchar, h]

theorem buildFilter_filters {V : Type} [LinearOrder V] (hashF : V → Nat)
    (vals : List V) :
    (buildFilter hashF vals).filters
      = [(vals.map hashF).foldl SimdBlockFilter.insert_hash
          (SimdBlockFilter.init vals.length)] := by
  rw [buildFilter, insertAll_filters hashF vals _ (SimdBlockFilter.init vals.length) [] rfl]
  rw [← List.foldl_map]

theorem buildFilter_min {V : Type} [LinearOrder V] (hashF : V → Nat)
    (vals : List V) :
    (buildFilter hashF vals).min_value
      = vals.foldl (fun acc v => omin acc (some v)) none :=
  insertAll_min hashF vals _

theorem buildFilter_max {V : Type} [LinearOrder V] (hashF : V → Nat)
    (vals : List V) :
    (buildFilter hashF vals).max_value
      = vals.foldl (fun acc v => omax acc (some v)) none :=
  insertAll_max hashF vals _

theorem buildFilter_test_mem {V : Type} [LinearOrder V] (hashF : V → Nat)
    (vals : List V) (v : V) (hv : v ∈ vals) :
    ((buildFilter hashF vals).filters.getD 0 emptySBF).test_hash (hashF v)
      = true := by
  rw [buildFilter_filters]
  simp only [List.getD_cons_zero]
  apply test_foldl_insert_mem _ _ _ (List.mem_map_of_mem hashF hv)
  simp [SimdBlockFilter.init]

theorem buildFilter_wfWith {V : Type} [LinearOrder V] (hashF : V → Nat)
    (valOK : V → Bool) (vals : List V)
    (hvals : ∀ v ∈ vals, valOK v = true) (hlen : vals.length < 2 ^ 32) :
    (buildFilter hashF vals).wfWith valOK := by
  refine ⟨?_, ?_, ?_, ?_⟩
  · rw [buildFilter_filters]
    intro b hb
    simp only [List.mem_singleton] at hb
    subst hb
    obtain ⟨hw, hlog, _⟩ :=
      foldl_insert_hash_wf (vals.map hashF) (SimdBlockFilter.init vals.length)
        (init_wf vals.length)
    exact ⟨hw, by rw [hlog]; exact init_log_lt vals.length hlen⟩
  · rw [buildFilter_filters]
    norm_num
  · rw [buildFilter_min]
    cases hres : vals.foldl (fun acc v => omin acc (some v)) none with
    | none => rfl
    | some m =>
      rcases foldl_ominv_result vals none m hres with habs | hmem
      · cases habs
      · simp [Option.all_some, hvals m hmem]
  · rw [buildFilter_max]
    cases hres : vals.foldl (fun acc v => omax acc (some v)) none with
    | none => rfl
    | some m =>
      rcases foldl_omaxv_result vals none m hres with habs | hmem
      · cases habs
      · simp [Option.all_some, hvals m hmem]

theorem foldl_concat_filters {V : Type} [LinearOrder V]
    (l : List (RuntimeBloomFilter V)) (g : RuntimeBloomFilter V) :
    (l.foldl RuntimeBloomFilter.concat g).filters
      = g.filters ++ l.flatMap RuntimeBloomFilter.filters := by
  induction l generalizing g with
  | nil => simp
  | cons c cs ih =>
    simp only [List.foldl_cons, List.flatMap_cons, ih]
    simp [RuntimeBloomFilter.concat]

theorem foldl_concat_min {V : Type} [LinearOrder V]
    (l : List (RuntimeBloomFilter V)) (g : RuntimeBloomFilter V) :
    (l.foldl RuntimeBloomFilter.concat g).min_value
      = (l.map RuntimeBloomFilter.min_value).foldl omin g.min_value := by
  induction l generalizing g with
  | nil => rfl
  | cons c cs ih =>
    simp only [List.foldl_cons, List.map_cons, ih]
    rfl

theorem foldl_concat_max {V : Type} [LinearOrder V]
    (l : List (RuntimeBloomFilter V)) (g : RuntimeBloomFilter V) :
    (l.foldl RuntimeBloomFilter.concat g).max_value
      = (l.map RuntimeBloomFilter.max_value).foldl omax g.max_value := by
  induction l generalizing g with
  | nil => rfl
  | cons c cs ih =>
    simp only [List.foldl_cons, List.map_cons, ih]
    rfl

theorem foldl_omin_opt_le {V : Type} [LinearOrder V] (l : List (Option V))
    (a : V) : ∃ m, l.foldl omin (some a) = some m ∧ m ≤ a := by
  induction l generalizing a with
  | nil => exact ⟨a, rfl, le_rfl⟩
  | cons o os ih =>
    cases o with
    | none => simpa [omin] using ih a
    | some b =>
      simp only [List.foldl_cons, omin]
      obtain ⟨m, hm, hle⟩ := ih (min a b)
      exact ⟨m, hm, le_trans hle (min_le_left a b)⟩

theorem foldl_omin_opt_mem {V : Type} [LinearOrder V] (l : List (Option V))
    (x : V) (hx : some x ∈ l) (acc : Option V) :
    ∃ m, l.foldl omin acc = some m ∧ m ≤ x := by
  induction l generalizing acc with
  | nil => cases hx
  | cons o os ih =>
    simp only [List.foldl_cons]
    rcases List.mem_cons.mp hx with heq | hmem
    · subst heq
      cases acc with
      | none => exact foldl_omin_opt_le os x
      | some a =>
        obtain ⟨m, hm, hle⟩ := foldl_omin_opt_le os (min a x)
        exact ⟨m, hm, le_trans hle (min_le_right a x)⟩
    · exact ih hmem _

theorem foldl_omax_opt_le {V : Type} [LinearOrder V] (l : List (Option V))
    (a : V) : ∃ m, l.foldl omax (some a) = some m ∧ a ≤ m := by
  induction l generalizing a with
  | nil => exact ⟨a, rfl, le_rfl⟩
  | cons o os ih =>
    cases o with
    | none => simpa [omax] using ih a
    | some b =>
      simp only [List.foldl_cons, omax]
      obtain ⟨m, hm, hle⟩ := ih (max a b)
      exact ⟨m, hm, le_trans (le_max_left a b) hle⟩

theorem foldl_omax_opt_mem {V : Type} [LinearOrder V] (l : List (Option V))
    (x : V) (hx : some x ∈ l) (acc : Option V) :
    ∃ m, l.foldl omax acc = some m ∧ x ≤ m := by
  induction l generalizing acc with
  | nil => cases hx
  | cons o os ih =>
    simp only [List.foldl_cons]
    rcases List.mem_cons.mp hx with heq | hmem
    · subst heq
      cases acc with
      | none => exact foldl_omax_opt_le os x
      | some a =>
        obtain ⟨m, hm, hle⟩ := foldl_omax_opt_le os (max a x)
        exact ⟨m, hm, le_trans (le_max_right a x) hle⟩
    · exact ih hmem _

theorem getD_map_range {β : Type} (P p : Nat) (F : Nat → β) (d : β)
    (hp : p < P) : ((List.range P).map F).getD p d = F p := by
  rw [List.getD_eq_getElem?_getD, List.getElem?_map, List.getElem?_range hp]
  rfl

theorem evaluate_all_pass {V : Type} [LinearOrder V] (hashF : V → Nat)
    (f : RuntimeBloomFilter V) (rows : List V) (bs : List Nat)
    (h : ∀ v ∈ rows, f.testRow hashF bs (some v) = true) :
    (f.evaluate hashF (rows.map some)
      { selection := List.replicate rows.length true,
        bucketseq_to_partition := bs }).1 = rows.length := by
  simp only [RuntimeBloomFilter.evaluate]
  exact count_zipWith_all_true _ rows h

theorem partFilter_wfWith (hashF : List Nat → Nat) (rows : List (List Nat))
    (P p : Nat) (hcnt : rows.length < 2 ^ 32)
    (hrows : ∀ v ∈ rows, strValOK v = true) :
    (partFilter hashF rows P p).wfWith strValOK :=
  buildFilter_wfWith hashF strValOK _
    (fun w hw => hrows w (List.mem_of_mem_filter hw))
    (lt_of_le_of_lt (List.length_filter_le _ _) hcnt)

theorem grfOf_eq (hashF : List Nat → Nat) (rows : List (List Nat)) (P : Nat)
    (hcnt : rows.length < 2 ^ 32) (hrows : ∀ v ∈ rows, strValOK v = true) :
    grfOf hashF rows P
      = (((List.range P).map (fun p => partFilter hashF rows P p)).foldl
          RuntimeBloomFilter.concat RuntimeBloomFilter.empty).set_join_mode
          JoinMode.PARTITIONED := by
  rw [grfOf]
  congr 2
  exact List.map_congr_left
    (fun p _ => roundtripVarchar_eq _ (partFilter_wfWith hashF rows P p hcnt hrows))

theorem grfOf_filters (hashF : List Nat → Nat) (rows : List (List Nat))
    (P : Nat) (hcnt : rows.length < 2 ^ 32)
    (hrows : ∀ v ∈ rows, strValOK v = true) :
    (grfOf hashF rows P).filters
      = (List.range P).map (fun p =>
          ((partRows hashF rows P p).map hashF).foldl
            SimdBlockFilter.insert_hash
            (SimdBlockFilter.init (partRows hashF rows P p).length)) := by
  rw [grfOf_eq hashF rows P hcnt hrows]
  show (((List.range P).map (fun p => partFilter hashF rows P p)).foldl
      RuntimeBloomFilter.concat RuntimeBloomFilter.empty).filters = _
  rw [foldl_concat_filters, List.flatMap_map]
  have hsing : ∀ p : Nat, (partFilter hashF rows P p).filters
      = [((partRows hashF rows P p).map hashF).foldl SimdBlockFilter.insert_hash
          (SimdBlockFilter.init (partRows hashF rows P p).length)] :=
    fun p => buildFilter_filters hashF (partRows hashF rows P p)
  simp only [hsing]
  rw [← List.map_eq_flatMap]
  rfl

theorem grf_testRow_true (hashF : List Nat → Nat) (rows : List (List Nat))
    (P : Nat) (hP : 0 < P) (hcnt : rows.length < 2 ^ 32)
    (hrows : ∀ v ∈ rows, strValOK v = true)
    (v : List Nat) (hv : v ∈ rows) :
    (grfOf hashF rows P).testRow hashF [] (some v) = true := by
  have hv0 : v ∈ partRows hashF rows P (hashF v % P) :=
    List.mem_filter.mpr ⟨hv, by simp⟩
  -- the composite range contains v
  obtain ⟨m, hm, hmle⟩ := foldl_ominv_mem _ v hv0 none
  obtain ⟨M, hM, hMle⟩ := foldl_omaxv_mem _ v hv0 none
  have hbmin : (partFilter hashF rows P (hashF v % P)).min_value = some m := by
    rw [partFilter, buildFilter_min]
    exact hm
  have hbmax : (partFilter hashF rows P (hashF v % P)).max_value = some M := by
    rw [partFilter, buildFilter_max]
    exact hM
  have hmemp : (hashF v % P) ∈ List.range P := List.mem_range.mpr (Nat.mod_lt _ hP)
  have hminmem : some m ∈ ((List.range P).map (fun p => partFilter hashF rows P p)).map
      RuntimeBloomFilter.min_value := by
    rw [List.map_map]
    exact List.mem_map.mpr ⟨hashF v % P, hmemp, by simpa using hbmin⟩
  have hmaxmem : some M ∈ ((List.range P).map (fun p => partFilter hashF rows P p)).map
      RuntimeBloomFilter.max_value := by
    rw [List.map_map]
    exact List.mem_map.mpr ⟨hashF v % P, hmemp, by simpa using hbmax⟩
  obtain ⟨mg, hmg, hmgle⟩ := foldl_omin_opt_mem _ m hminmem none
  obtain ⟨Mg, hMg, hMgle⟩ := foldl_omax_opt_mem _ M hmaxmem none
  have hgmin : (grfOf hashF rows P).min_value = some mg := by
    rw [grfOf_eq hashF rows P hcnt hrows]
    show (((List.range P).map (fun p => partFilter hashF rows P p)).foldl
        RuntimeBloomFilter.concat RuntimeBloomFilter.empty).min_value = some mg
    rw [foldl_concat_min]
    exact hmg
  have hgmax : (grfOf hashF rows P).max_value = some Mg := by
    rw [grfOf_eq hashF rows P hcnt hrows]
    show (((List.range P).map (fun p => partFilter hashF rows P p)).foldl
        RuntimeBloomFilter.concat RuntimeBloomFilter.empty).max_value = some Mg
    rw [foldl_concat_max]
    exact hMg
  have hrange : (grfOf hashF rows P).rangeContains v = true := by
    simp only [RuntimeBloomFilter.rangeContains, hgmin, hgmax, Bool.and_eq_true,
      decide_eq_true_eq]
    exact ⟨le_trans hmgle hmle, le_trans hMle hMgle⟩
  -- the routed sub-filter contains the value's hash
  have hmode : (grfOf hashF rows P).join_mode = JoinMode.PARTITIONED := by
    rw [grfOf_eq hashF rows P hcnt hrows]
    rfl
  have hfl := grfOf_filters hashF rows P hcnt hrows
  have hplen : (grfOf hashF rows P).filters.length = P := by
    rw [hfl]
    simp
  have hroute : routePartition (grfOf hashF rows P).join_mode []
      (grfOf hashF rows P).filters.length (hashF v) = hashF v % P := by
    rw [hmode, hplen]
    rfl
  have hsub : (grfOf hashF rows P).filters.getD (hashF v % P) emptySBF
      = ((partRows hashF rows P (hashF v % P)).map hashF).foldl
          SimdBlockFilter.insert_hash
          (SimdBlockFilter.init (partRows hashF rows P (hashF v % P)).length) := by
    rw [hfl]
    exact getD_map_range P _ _ _ (Nat.mod_lt _ hP)
  have htest : ((grfOf hashF rows P).filters.getD (hashF v % P) emptySBF).test_hash
      (hashF v) = true := by
    rw [hsub]
    apply test_foldl_insert_mem _ _ _ (List.mem_map_of_mem hashF hv0)
    simp [SimdBlockFilter.init]
  simp only [RuntimeBloomFilter.testRow, hroute, hrange, htest, Bool.and_self]

/-! ## Claims -/

/-- Claim C1: Partition-consistency of concat: build one single-partition
`RuntimeBloomFilter` per partition from rows routed by a partition hash
function, serialize each, deserialize each, and concat them in partition
order into one composite filter whose join mode is set to the same
partitioning scheme; then evaluating on the original source column with
selection initialized all-ones passes every source row: the returned
surviving-row count equals the total row count. -/
theorem concat_partitioned_probe_C1 (hashF : List Nat → Nat)
    (rows : List (List Nat)) (P : Nat) (hP : 0 < P)
    (hcnt : rows.length < 2 ^ 32) (hrows : ∀ v ∈ rows, strValOK v = true) :
    ((grfOf hashF rows P).evaluate hashF (rows.map some)
      { selection := List.replicate rows.length true,
        bucketseq_to_partition := [] }).1 = rows.length :=
  evaluate_all_pass hashF _ rows []
    (fun v hv => grf_testRow_true hashF rows P hP hcnt hrows v hv)

/-- Witness for C1: 4 concrete byte-string rows routed into 3 partitions by
their head byte; the composite passes all 4. -/
theorem concat_partitioned_probe_C1_witness :
    (0 < 3 ∧ ([[1], [2], [3], [4]] : List (List Nat)).length < 2 ^ 32 ∧
      (∀ v ∈ ([[1], [2], [3], [4]] : List (List Nat)), strValOK v = true)) ∧
    ((grfOf (fun s => s.headD 0) [[1], [2], [3], [4]] 3).evaluate
      (fun s => s.headD 0) (([[1], [2], [3], [4]] : List (List Nat)).map some)
      { selection := List.replicate 4 true,
        bucketseq_to_partition := [] }).1 = 4 :=
  ⟨⟨by decide, by decide, by decide⟩,
    concat_partitioned_probe_C1 (fun s => s.headD 0) [[1], [2], [3], [4]] 3
      (by decide) (by decide) (by decide)⟩

/-- Claim C2: No false negatives: `test_hash h` is true immediately after
`insert_hash h`, and `merge` of same-shape filters answers true for every
member of either input, so membership survives any sequence of merges. -/
theorem simd_no_false_negatives_C2 :
    (∀ (f : SimdBlockFilter) (h : Nat), 0 < f.directory.length →
      (f.insert_hash h).test_hash h = true) ∧
    (∀ (f g : SimdBlockFilter) (h : Nat), f.sameShape g →
      (f.test_hash h = true ∨ g.test_hash h = true) →
      (f.merge g).test_hash h = true) :=
  ⟨fun f h hne => test_insert_self f h hne,
   fun f g h hs hor => hor.elim (test_merge_left f g h hs) (test_merge_right f g h hs)⟩

/-- Witness for C2: hash 7 inserted into one of two same-shape filters is
still found after the insert and after a merge. -/
theorem simd_no_false_negatives_C2_witness :
    ((SimdBlockFilter.init 4).insert_hash 7).test_hash 7 = true ∧
    (((SimdBlockFilter.init 4).insert_hash 7).merge
      ((SimdBlockFilter.init 4).insert_hash 9)).test_hash 7 = true :=
  ⟨simd_no_false_negatives_C2.1 (SimdBlockFilter.init 4) 7 (by decide),
   simd_no_false_negatives_C2.2 ((SimdBlockFilter.init 4).insert_hash 7)
     ((SimdBlockFilter.init 4).insert_hash 9) 7 (by constructor <;> decide)
     (Or.inl (by decide))⟩

/-- Claim C3: Serialization round-trip: for every built (well-formed) runtime
filter of the integer or varchar logical type, deserializing the serialized
bytes consumes them entirely and yields a filter that is `check_equal` to
the original with the same min, max and null flag. (The caller-supplied
arena only owns the result's storage and is outside the value model.) -/
theorem serialize_roundtrip_C3 (tf : TypedFilter) (hwf : tf.wfT) :
    ∃ g, deserialize_runtime_filter (serialize_runtime_filter tf)
        = some (g, []) ∧
      g.check_equal tf = true ∧ g.has_nullT = tf.has_nullT ∧
      g.minValueE = tf.minValueE ∧ g.maxValueE = tf.maxValueE := by
  refine ⟨tf, ?_, ?_, rfl, rfl, rfl⟩
  · have h := deserialize_serialize tf hwf []
    rwa [List.append_nil] at h
  · cases tf <;> simp [TypedFilter.check_equal, RuntimeBloomFilter.check_equal]

/-- Witness for C3: a concrete integer filter holding {0, 17} round-trips. -/
theorem serialize_roundtrip_C3_witness :
    (TypedFilter.intFilter
      ((RuntimeBloomFilter.init 1).insertAll (fun i : Int => i.toNat)
        [0, 17])).wfT ∧
    ∃ g, deserialize_runtime_filter (serialize_runtime_filter
        (TypedFilter.intFilter
          ((RuntimeBloomFilter.init 1).insertAll (fun i : Int => i.toNat)
            [0, 17]))) = some (g, []) ∧
      g.check_equal (TypedFilter.intFilter
        ((RuntimeBloomFilter.init 1).insertAll (fun i : Int => i.toNat)
          [0, 17])) = true ∧
      g.has_nullT = (TypedFilter.intFilter
        ((RuntimeBloomFilter.init 1).insertAll (fun i : Int => i.toNat)
          [0, 17])).has_nullT ∧
      g.minValueE = (TypedFilter.intFilter
        ((RuntimeBloomFilter.init 1).insertAll (fun i : Int => i.toNat)
          [0, 17])).minValueE ∧
      g.maxValueE = (TypedFilter.intFilter
        ((RuntimeBloomFilter.init 1).insertAll (fun i : Int => i.toNat)
          [0, 17])).maxValueE :=
  ⟨by decide, serialize_roundtrip_C3 _ (by decide)⟩

/-- Claim C4: Partition routing: `NONE` routes to partition 0 always; the three
hash-partitioned modes route to `hash(value) % num_partitions`; `COLOCATE`
routes to `bucketseq_to_partition[hash(value) % num_buckets]` with
`num_buckets` the table length; and for a non-null row the per-row probe
outcome equals the range pre-check ANDed with a direct test of exactly the
routed sub-filter, so identical mode and table on both sides reproduce
direct per-partition testing. -/
theorem partition_routing_C4 {V : Type} [LinearOrder V] (hashF : V → Nat)
    (f : RuntimeBloomFilter V) (bucketseq : List Nat) (v : V) :
    (f.join_mode = JoinMode.NONE →
      routePartition f.join_mode bucketseq f.filters.length (hashF v) = 0) ∧
    ((f.join_mode = JoinMode.LOCAL_HASH_BUCKET ∨
        f.join_mode = JoinMode.PARTITIONED ∨
        f.join_mode = JoinMode.SHUFFLE_HASH_BUCKET) →
      routePartition f.join_mode bucketseq f.filters.length (hashF v)
        = hashF v % f.filters.length) ∧
    (f.join_mode = JoinMode.COLOCATE →
      routePartition f.join_mode bucketseq f.filters.length (hashF v)
        = bucketseq.getD (hashF v % bucketseq.length) 0) ∧
    (f.testRow hashF bucketseq (some v)
      = (f.rangeContains v &&
          (f.filters.getD
            (routePartition f.join_mode bucketseq f.filters.length (hashF v))
            emptySBF).test_hash (hashF v))) := by
  refine ⟨?_, ?_, ?_, rfl⟩
  · intro h
    rw [h]
    rfl
  · intro h
    rcases h with h | h | h <;> rw [h] <;> rfl
  · intro h
    rw [h]
    rfl

/-- Witness for C4: a 3-partition PARTITIONED filter routes hash 7 to
partition 7 % 3. -/
theorem partition_routing_C4_witness :
    routePartition
      (RuntimeBloomFilter.mk (V := Int) [emptySBF, emptySBF, emptySBF]
        none none false JoinMode.PARTITIONED).join_mode [2, 0, 1]
      (RuntimeBloomFilter.mk (V := Int) [emptySBF, emptySBF, emptySBF]
        none none false JoinMode.PARTITIONED).filters.length
      ((fun i : Int => i.toNat) 7)
      = (fun i : Int => i.toNat) 7 %
        (RuntimeBloomFilter.mk (V := Int) [emptySBF, emptySBF, emptySBF]
          none none false JoinMode.PARTITIONED).filters.length :=
  (partition_routing_C4 (fun i : Int => i.toNat)
    (RuntimeBloomFilter.mk [emptySBF, emptySBF, emptySBF]
      none none false JoinMode.PARTITIONED) [2, 0, 1] 7).2.1
    (Or.inr (Or.inl rfl))

/-- The integer filter of the merge scenario holding {0, 17, ..., 187}. -/
def bf0C5 : RuntimeBloomFilter Int :=
  (RuntimeBloomFilter.init 100).insertAll (fun i : Int => i.toNat)
    ((List.range 12).map (fun k => (17 * (k : Int))))

/-- The integer filter of the merge scenario holding {1, 18, ..., 188}. -/
def bf1C5 : RuntimeBloomFilter Int :=
  (RuntimeBloomFilter.init 100).insertAll (fun i : Int => i.toNat)
    ((List.range 12).map (fun k => (17 * (k : Int) + 1)))

/-- The merge of both into a fresh same-shape filter, as in
`TestJoinRuntimeFilterMerge`. -/
def mergedC5 : RuntimeBloomFilter Int :=
  ((RuntimeBloomFilter.init 100).merge bf0C5).merge bf1C5

/-- Claim C5: Range correctness of insert and merge: after inserting
{0, 17, ..., 187} the range is [0, 187]; merging with a filter built from
{1, 18, ..., 188} yields exactly [0, 188]; and in general `merge` takes the
min of mins, the max of maxes, bloom-merges every corresponding partition
and ORs the null flags. -/
theorem merge_range_C5 :
    (bf0C5.min_value = some 0 ∧ bf0C5.max_value = some 187) ∧
    (bf1C5.min_value = some 1 ∧ bf1C5.max_value = some 188) ∧
    (mergedC5.min_value = some 0 ∧ mergedC5.max_value = some 188) ∧
    (∀ (a b : RuntimeBloomFilter Int),
      (a.merge b).min_value = omin a.min_value b.min_value ∧
      (a.merge b).max_value = omax a.max_value b.max_value ∧
      (a.merge b).filters
        = List.zipWith SimdBlockFilter.merge a.filters b.filters ∧
      (a.merge b).has_null = (a.has_null || b.has_null)) :=
  ⟨⟨by decide, by decide⟩, ⟨by decide, by decide⟩, ⟨by decide, by decide⟩,
   fun a b => ⟨rfl, rfl, rfl, rfl⟩⟩

/-- Claim C6: `evaluate` only ever clears selection entries — an entry that was 0
before the call is still 0 after it — and the returned value is the number
of selection entries that are 1 after the call. -/
theorem evaluate_monotone_C6 {V : Type} [LinearOrder V] (hashF : V → Nat)
    (f : RuntimeBloomFilter V) (column : List (Option V))
    (ctx : RunningContext) (i : Nat)
    (h : ctx.selection.getD i false = false) :
    ((f.evaluate hashF column ctx).2.selection.getD i false = false) ∧
    (f.evaluate hashF column ctx).1
      = ((f.evaluate hashF column ctx).2.selection.count true) :=
  ⟨zipWith_and_getD_false _ _ _ _ h, rfl⟩

/-- Witness for C6: row 0 deselected before the call stays deselected. -/
theorem evaluate_monotone_C6_witness :
    (({ selection := [false, true], bucketseq_to_partition := [] }
        : RunningContext).selection.getD 0 false = false) ∧
    ((((RuntimeBloomFilter.init 1 : RuntimeBloomFilter Int).evaluate
        (fun i : Int => i.toNat) [some 3, some 4]
        { selection := [false, true], bucketseq_to_partition := [] }).2.selection.getD
          0 false = false) ∧
      ((RuntimeBloomFilter.init 1 : RuntimeBloomFilter Int).evaluate
        (fun i : Int => i.toNat) [some 3, some 4]
        { selection := [false, true], bucketseq_to_partition := [] }).1
        = (((RuntimeBloomFilter.init 1 : RuntimeBloomFilter Int).evaluate
            (fun i : Int => i.toNat) [some 3, some 4]
            { selection := [false, true],
              bucketseq_to_partition := [] }).2.selection.count true)) :=
  ⟨by decide,
   evaluate_monotone_C6 (fun i : Int => i.toNat) (RuntimeBloomFilter.init 1)
     [some 3, some 4]
     { selection := [false, true], bucketseq_to_partition := [] } 0 (by decide)⟩

/-- Claim C7: Null-insert frame effect: inserting a null value pointer sets
`has_null` and changes nothing else (min, max and the bloom partitions are
untouched); once `has_null` is true any merge keeps it true; and a null
probe row never passes evaluation under the default policy. -/
theorem null_insert_C7 {V : Type} [LinearOrder V] (hashF : V → Nat)
    (f g : RuntimeBloomFilter V) (column : List (Option V))
    (ctx : RunningContext) (i : Nat) :
    ((f.insert hashF none).has_null = true) ∧
    ((f.insert hashF none).min_value = f.min_value) ∧
    ((f.insert hashF none).max_value = f.max_value) ∧
    ((f.insert hashF none).filters = f.filters) ∧
    (f.has_null = true → (f.merge g).has_null = true) ∧
    (column.getD i none = none →
      (f.evaluate hashF column ctx).2.selection.getD i false = false) := by
  refine ⟨rfl, rfl, rfl, rfl, ?_, ?_⟩
  · intro h
    simp [RuntimeBloomFilter.merge, h]
  · intro h
    exact zipWith_and_getD_none _ rfl _ _ _ h

/-- Witness for C7: a null row (row 1) fails evaluation; the null insert
flags the filter without touching its range. -/
theorem null_insert_C7_witness :
    (((RuntimeBloomFilter.init 1 : RuntimeBloomFilter Int).insert
        (fun i : Int => i.toNat) none).has_null = true) ∧
    ((([some 3, none] : List (Option Int)).getD 1 none = none) ∧
      ((RuntimeBloomFilter.init 1 : RuntimeBloomFilter Int).evaluate
        (fun i : Int => i.toNat) [some 3, none]
        { selection := [true, true],
          bucketseq_to_partition := [] }).2.selection.getD 1 false = false) :=
  ⟨(null_insert_C7 (fun i : Int => i.toNat) (RuntimeBloomFilter.init 1)
      (RuntimeBloomFilter.init 1) [some 3, none]
      { selection := [true, true], bucketseq_to_partition := [] } 1).1,
   ⟨by decide,
    (null_insert_C7 (fun i : Int => i.toNat) (RuntimeBloomFilter.init 1)
      (RuntimeBloomFilter.init 1) [some 3, none]
      { selection := [true, true], bucketseq_to_partition := [] } 1).2.2.2.2.2
      (by decide)⟩⟩

/-- Claim C8: Deserialize rejects malformed input: an unrecognized leading type
tag fails, and any strict truncation of a valid serialization fails — in
both cases with no partial filter returned (`none`). -/
theorem deserialize_malformed_C8 :
    (∀ tag rest, tag ≠ TYPE_INT_TAG → tag ≠ TYPE_VARCHAR_TAG →
      deserialize_runtime_filter (tag :: rest) = none) ∧
    (∀ tf : TypedFilter, tf.wfT →
      ∀ k, k < (serialize_runtime_filter tf).length →
        deserialize_runtime_filter ((serialize_runtime_filter tf).take k)
          = none) := by
  constructor
  · intro tag rest h1 h2
    simp only [deserialize_runtime_filter, rbind, readByte_cons]
    rw [if_neg h1, if_neg h2]
    rfl
  · intro tf hwf k hk
    have hser := deserialize_serialize tf hwf []
    rw [List.append_nil] at hser
    obtain ⟨hle, hstab, hfail⟩ :=
      good_deserialize_runtime_filter _ _ _ hser
    have hres := hfail k (by simpa using hk)
    simpa using hres

/-- Witness for C8: tag 255 is rejected; a 3-byte truncation of a concrete
serialized integer filter is rejected. -/
theorem deserialize_malformed_C8_witness :
    deserialize_runtime_filter (255 :: []) = none ∧
    deserialize_runtime_filter
      ((serialize_runtime_filter (TypedFilter.intFilter
        ((RuntimeBloomFilter.init 1).insertAll (fun i : Int => i.toNat)
          [0, 17]))).take 3) = none :=
  ⟨deserialize_malformed_C8.1 255 [] (by decide) (by decide),
   deserialize_malformed_C8.2
     (TypedFilter.intFilter
       ((RuntimeBloomFilter.init 1).insertAll (fun i : Int => i.toNat)
         [0, 17])) (by decide) 3 (by decide)⟩

/-- Claim C9: The SimdBlockFilter wire size bound is tight: after `init` and any
sequence of `insert_hash` calls, `serialize` writes exactly
`max_serialized_size()` bytes, and deserializing them consumes exactly the
same byte count (nothing is left unread) and reconstructs a filter
`check_equal` to the original. -/
theorem simd_serialize_size_C9 (n : Nat) (hs : List Nat) (hn : n < 2 ^ 32) :
    ((hs.foldl SimdBlockFilter.insert_hash (SimdBlockFilter.init n)).serialize.length
      = (hs.foldl SimdBlockFilter.insert_hash
          (SimdBlockFilter.init n)).max_serialized_size) ∧
    ∃ g, deserializeSBF
        (hs.foldl SimdBlockFilter.insert_hash (SimdBlockFilter.init n)).serialize
        = some (g, []) ∧
      g.check_equal (hs.foldl SimdBlockFilter.insert_hash
        (SimdBlockFilter.init n)) = true := by
  obtain ⟨hwf, hlog, hlen⟩ :=
    foldl_insert_hash_wf hs (SimdBlockFilter.init n) (init_wf n)
  constructor
  · rw [serialize_length, SimdBlockFilter.max_serialized_size, hwf.1]
  · refine ⟨hs.foldl SimdBlockFilter.insert_hash (SimdBlockFilter.init n), ?_, ?_⟩
    · have h := deserializeSBF_append _ [] hwf
        (by rw [hlog]; exact init_log_lt n hn)
      rwa [List.append_nil] at h
    · simp [SimdBlockFilter.check_equal]

/-- Witness for C9: two hashes inserted after `init 1`; the serialized size
is exactly the declared maximum. -/
theorem simd_serialize_size_C9_witness :
    (1 < 2 ^ 32) ∧
    ((([5, 9] : List Nat).foldl SimdBlockFilter.insert_hash
        (SimdBlockFilter.init 1)).serialize.length
      = (([5, 9] : List Nat).foldl SimdBlockFilter.insert_hash
          (SimdBlockFilter.init 1)).max_serialized_size) :=
  ⟨by decide, (simd_serialize_size_C9 1 [5, 9] (by decide)).1⟩

end SRF
